import Mathlib

/-!
Verification of the MPT structural differ (`trie_diff.py`).

This file shallowly embeds the data model and the operations of the
two-trie structural differ: node references, the resolver, the recursive
walker `_compute_diff`, the account and storage leaf handlers, and the two
entry points `from_tries` and `from_data`.  Machine integers are modelled
as `Nat` (all byte values are `0..255` nibbles `0..15`); Python `bytes`
values are `List Nat`; Python dicts are insertion-ordered association
lists; Python exceptions are an explicit error type threaded through
`Except`.  The walker's unbounded recursion is modelled with explicit
fuel; running out of fuel is a dedicated error, so every `.ok` result
corresponds to a genuinely terminating Python run.
-/

set_option autoImplicit false

namespace TrieDiff

/-- Error taxonomy of the embedded code.  `valueError` models Python
`ValueError` (bad node reference / mismatched node types), `keyError`
models `KeyError` on a missing preimage, `indexError` models `IndexError`
on indexing an empty bytes, `attributeError` models `AttributeError` when
an attribute such as `.value` does not exist on a node, `badBranch`
models the assertion in `check_branch_node`, `badRlp` a failing RLP
decode, and `outOfFuel` is the fuel-exhaustion marker of the embedding. -/
inductive Err where
  | outOfFuel
  | valueError
  | keyError
  | indexError
  | attributeError
  | badBranch
  | badRlp
  deriving DecidableEq, Repr

/-- A node reference, as taken by `resolve` / `_compute_diff`: Python
`None` (`absent`), a raw `bytes` value (`raw`, covering the `b""` absent
sentinel, 32-byte hashes, and any invalid byte string), or an
already-resolved `InternalNode` passed through directly.  The three node
variants (`LeafNode`, `ExtensionNode`, `BranchNode`) are inlined as
constructors so that a reference and a node live in one type, exactly as
the Python code freely mixes them.  Inline RLP-list references (resolved
by `deserialize_to_internal_node`, which lives outside `src/`) are not
modelled; no claim exercises them. -/
inductive Ref where
  | absent
  | raw (bs : List Nat)
  | leaf (restOfKey : List Nat) (value : List Nat)
  | ext (keySegment : List Nat) (subnode : Ref)
  | branch (subnodes : List Ref) (value : List Nat)

mutual

/-- Python `==` on node references: `None == None`, structural equality
on `bytes`, and structural (dataclass) equality on the node variants;
`==` across different types is `False`. -/
def refBeq : Ref → Ref → Bool
  | .absent, .absent => true
  | .raw a, .raw b => a == b
  | .leaf a v, .leaf b w => a == b && v == w
  | .ext a s, .ext b t => a == b && refBeq s t
  | .branch s v, .branch t w => refListBeq s t && v == w
  | _, _ => false

/-- Structural equality on tuples of subnode references. -/
def refListBeq : List Ref → List Ref → Bool
  | [], [] => true
  | a :: as, b :: bs => refBeq a b && refListBeq as bs
  | _, _ => false

end

/-- A Python value as used by the `==` comparisons of the source: either
an `int` or a `bytes`.  Python's `==` between an `int` and a `bytes`
is always `False` (neither type implements a cross-type equality). -/
inductive PyVal where
  | int (n : Nat)
  | bytes (bs : List Nat)
  deriving DecidableEq, Repr

/-- Python `==` on `PyVal`: structural within one type, `False` across
types.  This is what `l_node.key_segment[0] == nibble` evaluates in the
source, where the left side is an `int` and `nibble = bytes([i])`. -/
def pyEq : PyVal → PyVal → Bool
  | .int a, .int b => a == b
  | .bytes a, .bytes b => a == b
  | _, _ => false

/-- Insertion-ordered dictionary lookup (Python `d.get(k)` / `k in d`). -/
def dictGet {K V : Type} [DecidableEq K] : List (K × V) → K → Option V
  | [], _ => none
  | (k', v') :: rest, k => if k' = k then some v' else dictGet rest k

/-- Insertion-ordered dictionary write (Python `d[k] = v`): overwrites in
place if the key exists, appends otherwise. -/
def dictInsert {K V : Type} [DecidableEq K] : List (K × V) → K → V → List (K × V)
  | [], k, v => [(k, v)]
  | (k', v') :: rest, k, v =>
    if k' = k then (k, v) :: rest else (k', v') :: dictInsert rest k v

/-- Python `k in d`. -/
def dictContains {K V : Type} [DecidableEq K] (m : List (K × V)) (k : K) : Bool :=
  (dictGet m k).isSome

/-- In-place update of the value stored at an existing key (a no-op when
the key is absent); models mutating `d[k]` through a reference. -/
def dictModify {K V : Type} [DecidableEq K] : List (K × V) → K → (V → V) → List (K × V)
  | [], _, _ => []
  | (k', v') :: rest, k, f =>
    if k' = k then (k', f v') :: rest else (k', v') :: dictModify rest k f

/-- The node store: `Dict[Hash32, InternalNode]`. -/
abbrev Store : Type := List (List Nat × Ref)

/-- `resolve(node, nodes)` from the source: `None` or `b""` is absent; an
`InternalNode` passes through; a 32-byte `bytes` is looked up with
`.get` (silently yielding `None` when missing); any other `bytes` raises
`ValueError`.  (The inline RLP-list case is not modelled, see `Ref`.) -/
def resolve (nodes : Store) : Ref → Except Err (Option Ref)
  | .absent => .ok none
  | .raw bs =>
    if bs = [] then .ok none
    else if bs.length = 32 then .ok (dictGet nodes bs)
    else .error .valueError
  | .leaf rk v => .ok (some (.leaf rk v))
  | .ext ks sub => .ok (some (.ext ks sub))
  | .branch subs v => .ok (some (.branch subs v))

/-- Modelled from the spec: `check_branch_node` (in `mpt.utils`, outside
`src/`) asserts that the node's `value` is empty — "A Branch's `value`
must be empty in this codebase's usage (a helper `check_branch_node`
asserts it); a non-empty branch value is a structural error."  Reading
`.value` on a node without that attribute (an `ExtensionNode`) fails
with `AttributeError`. -/
def check_branch_node : Ref → Except Err Unit
  | .leaf _ v => if v = [] then .ok () else .error .badBranch
  | .branch _ v => if v = [] then .ok () else .error .badBranch
  | _ => .error .attributeError

/-- Modelled from the spec: `nibble_list_to_bytes` (in `mpt.utils`,
outside `src/`) packs a nibble list two nibbles per output byte, high
nibble first — "packed from nibbles to bytes (2 nibbles per output byte;
total path length to a leaf is always even)". -/
def nibble_list_to_bytes : List Nat → List Nat
  | a :: b :: rest => (a * 16 + b) :: nibble_list_to_bytes rest
  | _ => []

/-- One call of the walker's leaf handler (`process_leaf_diff`): the
packed full key and the left/right leaves, each given as the pair
`(rest_of_key, value)` of the `LeafNode` passed. -/
structure Event where
  path : List Nat
  left : Option (List Nat × List Nat)
  right : Option (List Nat × List Nat)
  deriving DecidableEq, Repr

/-- A `for i in range(0, 16)` loop whose body issues one recursive walker
call per index, with errors aborting the loop and the emitted events of
the iterations concatenated in order. -/
def rangeFold (g : Nat → Except Err (List Event)) : List Nat → Except Err (List Event)
  | [] => .ok []
  | i :: rest => do
    let evs ← g i
    let more ← rangeFold g rest
    .ok (evs ++ more)

/-- The `for` loop of the `BranchNode/ExtensionNode` case.  The Python
loop body reads `r_node.key_segment[0]` of the *shared, mutable*
right-hand extension node and, in the matched arm, executes
`r_node.key_segment = r_node.key_segment[1:]` *in place* before recursing
on `(l_node.subnodes[i], r_node.subnode)`; the mutated segment is what
later iterations observe.  The embedding threads the current
`key_segment` (`rseg`) through the iterations to model that mutation.
Indexing an empty segment raises `IndexError`.  Note the guard compares
the `int` `rseg[0]` with the `bytes` `nibble = bytes([i])`. -/
def branchExtGo (go : Ref → Ref → List Nat → Except Err (List Event))
    (subs : List Ref) (rsub : Ref) (path : List Nat) :
    List Nat → List Nat → Except Err (List Event)
  | [], _ => .ok []
  | i :: rest, rseg =>
    match rseg with
    | [] => .error .indexError
    | s0 :: stail =>
      if pyEq (.int s0) (.bytes [i]) then do
        let evs ← go (subs.getD i .absent) rsub (path ++ [i])
        let more ← branchExtGo go subs rsub path rest stail
        .ok (evs ++ more)
      else do
        let evs ← go (subs.getD i .absent) .absent (path ++ [i])
        let more ← branchExtGo go subs rsub path rest rseg
        .ok (evs ++ more)

/-- The 16-case structural dispatch of `StateDiff._compute_diff` on the
pair of resolved nodes, parameterized by `go`, the recursive walker call
(`self._compute_diff` at the same handler).  Each arm is a direct
transcription of the corresponding `case` of the source `match`;
handler calls become emitted `Event`s, in call order. -/
def dispatch (go : Ref → Ref → List Nat → Except Err (List Event))
    (lN rN : Option Ref) (path : List Nat) : Except Err (List Event) :=
  match lN, rN with
  | none, none => .ok []
  | none, some (.leaf rk v) =>
    .ok [⟨nibble_list_to_bytes (path ++ rk), none, some (rk, v)⟩]
  | none, some (.ext ks sub) => go .absent sub (path ++ ks)
  | none, some (.branch subs bv) => do
    check_branch_node (.branch subs bv)
    rangeFold (fun i => go .absent (subs.getD i .absent) (path ++ [i])) (List.range 16)
  | some (.leaf rk v), none =>
    .ok [⟨nibble_list_to_bytes (path ++ rk), some (rk, v), none⟩]
  | some (.leaf lrk lv), some (.leaf rrk rv) =>
    if lrk = rrk then
      if lv ≠ rv then
        .ok [⟨nibble_list_to_bytes (path ++ lrk), some (lrk, lv), some (rrk, rv)⟩]
      else .ok []
    else
      .ok [⟨nibble_list_to_bytes (path ++ lrk), some (lrk, lv), none⟩,
           ⟨nibble_list_to_bytes (path ++ rrk), none, some (rrk, rv)⟩]
  | some (.leaf lrk lv), some (.ext ks sub) =>
    if List.isPrefixOf ks lrk then
      go (.leaf (lrk.drop ks.length) lv) sub (path ++ ks)
    else do
      let more ← go .absent sub (path ++ ks)
      .ok (⟨nibble_list_to_bytes (path ++ lrk), some (lrk, lv), none⟩ :: more)
  | some (.leaf lrk lv), some (.branch subs bv) => do
    check_branch_node (.branch subs bv)
    rangeFold (fun i =>
      match lrk with
      | [] => .error .indexError
      | l0 :: ltail =>
        if i ≠ l0 then go .absent (subs.getD i .absent) (path ++ [i])
        else go (.leaf ltail lv) (subs.getD i .absent) (path ++ [i])) (List.range 16)
  | some (.ext ks sub), none => go sub .absent (path ++ ks)
  | some (.ext ks sub), some (.leaf rrk rv) =>
    if List.isPrefixOf ks rrk then
      go sub (.leaf (rrk.drop ks.length) rv) (path ++ ks)
    else do
      let more ← go sub .absent (path ++ ks)
      .ok (⟨nibble_list_to_bytes (path ++ rrk), none, some (rrk, rv)⟩ :: more)
  | some (.ext lks lsub), some (.ext rks rsub) =>
    if lks = rks then go lsub rsub (path ++ lks)
    else if List.isPrefixOf rks lks then
      go (.ext (lks.drop rks.length) lsub) rsub (path ++ rks)
    else if List.isPrefixOf lks rks then
      go lsub (.ext (rks.drop lks.length) rsub) (path ++ lks)
    else do
      let evsL ← go lsub .absent (path ++ lks)
      let evsR ← go .absent rsub (path ++ rks)
      .ok (evsL ++ evsR)
  | some (.ext ks sub), some (.branch subs bv) => do
    check_branch_node (.branch subs bv)
    rangeFold (fun i =>
      match ks with
      | [] => .error .indexError
      | k0 :: ktail =>
        if pyEq (.int k0) (.bytes [i]) then
          go (if ktail = [] then sub else .ext ktail sub) (subs.getD i .absent) (path ++ [i])
        else go .absent (subs.getD i .absent) (path ++ [i])) (List.range 16)
  | some (.branch subs bv), none => do
    check_branch_node (.branch subs bv)
    rangeFold (fun i => go (subs.getD i .absent) .absent (path ++ [i])) (List.range 16)
  | some (.branch subs _bv), some (.leaf rrk rv) => do
    check_branch_node (.leaf rrk rv)
    rangeFold (fun i =>
      match rrk with
      | [] => .error .indexError
      | r0 :: rtail =>
        if i ≠ r0 then go (subs.getD i .absent) .absent (path ++ [i])
        else go (subs.getD i .absent) (.leaf rtail rv) (path ++ [i])) (List.range 16)
  | some (.branch subs _bv), some (.ext rks rsub) => do
    check_branch_node (.ext rks rsub)
    branchExtGo go subs rsub path (List.range 16) rks
  | some (.branch lsubs lv), some (.branch rsubs rv) => do
    check_branch_node (.branch lsubs lv)
    check_branch_node (.branch rsubs rv)
    rangeFold (fun i =>
      go (lsubs.getD i .absent) (rsubs.getD i .absent) (path ++ [i])) (List.range 16)
  | _, _ => .error .valueError

/-- `StateDiff._compute_diff(left, right, path, process_leaf_diff)`.
Checks the fast path `left == right` first (Python structural `==` on
the references), then resolves both sides and dispatches on the node
pair.  The handler calls are returned as the ordered list of `Event`s;
`fuel` bounds the recursion depth (the Python recursion is unbounded). -/
def computeDiff (nodes : Store) : Nat → Ref → Ref → List Nat → Except Err (List Event)
  | 0, left, right, _ =>
    if refBeq left right then .ok [] else .error .outOfFuel
  | fuel + 1, left, right, path =>
    if refBeq left right then .ok []
    else do
      let lN ← resolve nodes left
      let rN ← resolve nodes right
      dispatch (computeDiff nodes fuel) lN rN path

/-- An RLP item: a byte string or a list of items.  Modelled from the
spec: RLP primitive encoding/decoding is an external collaborator
("assumed available", `ethereum_rlp`); this decoder implements the
standard RLP grammar for the payload shapes the handlers consume. -/
inductive Rlp where
  | str (bs : List Nat)
  | items (l : List Rlp)

/-- Big-endian `int.from_bytes`. -/
def natFromBytes (bs : List Nat) : Nat :=
  bs.foldl (fun acc b => acc * 256 + b) 0

mutual

/-- Modelled from the spec: decode one RLP item from the front of a byte
string, returning the item and the remaining bytes.  `fuel` bounds the
nesting depth (any input of length `n` needs at most `n + 1`). -/
def rlpDecodeItem : Nat → List Nat → Except Err (Rlp × List Nat)
  | 0, _ => .error .badRlp
  | _ + 1, [] => .error .badRlp
  | fuel + 1, b :: rest =>
    if b < 128 then .ok (.str [b], rest)
    else if b < 184 then
      let n := b - 128
      if n ≤ rest.length then .ok (.str (rest.take n), rest.drop n) else .error .badRlp
    else if b < 192 then
      let ll := b - 183
      if ll ≤ rest.length then
        let n := natFromBytes (rest.take ll)
        let rest' := rest.drop ll
        if n ≤ rest'.length then .ok (.str (rest'.take n), rest'.drop n)
        else .error .badRlp
      else .error .badRlp
    else if b < 248 then
      let n := b - 192
      if n ≤ rest.length then do
        let its ← rlpDecodeSeq fuel (rest.take n)
        .ok (.items its, rest.drop n)
      else .error .badRlp
    else
      let ll := b - 247
      if ll ≤ rest.length then
        let n := natFromBytes (rest.take ll)
        let rest' := rest.drop ll
        if n ≤ rest'.length then do
          let its ← rlpDecodeSeq fuel (rest'.take n)
          .ok (.items its, rest'.drop n)
        else .error .badRlp
      else .error .badRlp

/-- Decode a concatenated sequence of RLP items until the bytes are
exhausted (the payload of a list). -/
def rlpDecodeSeq : Nat → List Nat → Except Err (List Rlp)
  | 0, _ => .error .badRlp
  | _ + 1, [] => .ok []
  | fuel + 1, b :: rest => do
    let (item, rem) ← rlpDecodeItem fuel (b :: rest)
    if rem.length < (b :: rest).length then do
      let its ← rlpDecodeSeq fuel rem
      .ok (item :: its)
    else .error .badRlp

end

/-- Modelled from the spec: `rlp.decode` on a complete byte string —
exactly one item consuming all input.  The fuel `2 * bs.length + 2`
dominates the alternation of item and sequence steps. -/
def rlpDecode (bs : List Nat) : Except Err Rlp := do
  let (item, rem) ← rlpDecodeItem (2 * bs.length + 2) bs
  if rem = [] then .ok item else .error .badRlp

/-- The account record stored in the diff:
`{ nonce, balance, code_hash, storage_root }` (`code` deliberately
unset). -/
structure Account where
  nonce : Nat
  balance : Nat
  code_hash : List Nat
  storage_root : List Nat
  deriving DecidableEq, Repr

/-- Modelled from the spec: `Account.from_rlp` decodes the account leaf
payload, an RLP list `[nonce, balance, storage_root, code_hash]`
(§6.3), integers big-endian. -/
def accountFromRlp (bs : List Nat) : Except Err Account :=
  match rlpDecode bs with
  | .ok (.items [.str n, .str b, .str sr, .str ch]) =>
    .ok ⟨natFromBytes n, natFromBytes b, ch, sr⟩
  | _ => .error .badRlp

/-- `U256(int.from_bytes(rlp.decode(value), "big"))` on a storage leaf
payload; a decoded RLP list cannot be fed to `int.from_bytes`. -/
def storageValueFromRlp (bs : List Nat) : Except Err Nat :=
  match rlpDecode bs with
  | .ok (.str s) => .ok (natFromBytes s)
  | _ => .error .badRlp

/-- `storage_diffs`: `address → (storage_key → (pre?, post?))`. -/
abbrev StorageTries : Type := List (List Nat × List (List Nat × (Option Nat × Option Nat)))

/-- The diff accumulator: `_main_trie` and `_storage_tries` of
`StateDiff` (the node store and preimage maps are carried separately as
arguments in the embedding). -/
structure StateDiffAcc where
  main_trie : List (List Nat × (Option Account × Option Account))
  storage_tries : StorageTries
  deriving Repr

/-- The ensure-then-assign pattern repeated in each occupancy branch of
`_process_storage_diff`: `if address not in storage_tries:
storage_tries[address] = {}` followed by
`storage_tries[address][key] = pair`. -/
def ensure_and_set (st : StorageTries) (address key : List Nat)
    (pair : Option Nat × Option Nat) : StorageTries :=
  let st1 := if dictContains st address then st else dictInsert st address []
  dictModify st1 address (fun inner => dictInsert inner key pair)

/-- Python `d[k]`: a missing key raises `KeyError`. -/
def dictGetItem (m : List (List Nat × List Nat)) (k : List Nat) : Except Err (List Nat) :=
  match dictGet m k with
  | some v => .ok v
  | none => .error .keyError

/-- The conditional expression
`None if side is None else U256(int.from_bytes(rlp.decode(side.value), "big"))`. -/
def decodeOptStorage : Option (List Nat × List Nat) → Except Err (Option Nat)
  | some l => Except.map some (storageValueFromRlp l.2)
  | none => .ok none

/-- `StateDiff._process_storage_diff(address, path, left, right)`: look
up the storage-key preimage (a missing one raises `KeyError`), decode
each present side as a big-endian integer, and record
`storage_diffs[address][key] = (pre?, post?)`, creating the inner dict
on first write, with the source's three occupancy branches. -/
def process_storage_diff (storage_key_preimages : List (List Nat × List Nat))
    (address : List Nat) (st : StorageTries) (e : Event) : Except Err StorageTries := do
  let key ← dictGetItem storage_key_preimages e.path
  let left_decoded ← decodeOptStorage e.left
  let right_decoded ← decodeOptStorage e.right
  match e.left, e.right with
  | none, _ => .ok (ensure_and_set st address key (none, right_decoded))
  | some _, none => .ok (ensure_and_set st address key (left_decoded, none))
  | some _, some _ => .ok (ensure_and_set st address key (left_decoded, right_decoded))

/-- The storage-root reference handed to the nested storage walk:
`None` for an absent account, else the account's 32-byte
`storage_root`. -/
def storageRootRef : Option Account → Ref
  | none => .absent
  | some a => .raw a.storage_root

/-- The conditional expression
`None if side is None else Account.from_rlp(side.value)`. -/
def decodeOptAccount : Option (List Nat × List Nat) → Except Err (Option Account)
  | some l => Except.map some (accountFromRlp l.2)
  | none => .ok none

/-- `StateDiff._process_account_diff(path, left, right)`: look up the
address preimage (`KeyError` if missing), decode each present side with
`Account.from_rlp`, record `account_diffs[address]`, then re-enter the
walker on the two storage roots with the storage handler bound to
`address`.  The walk is synchronous; the embedding runs the nested walk
and folds its events into the storage map before returning. -/
def process_account_diff (nodes : Store)
    (address_preimages storage_key_preimages : List (List Nat × List Nat))
    (fuel : Nat) (acc : StateDiffAcc) (e : Event) : Except Err StateDiffAcc := do
  let address ← dictGetItem address_preimages e.path
  let left_account ← decodeOptAccount e.left
  let right_account ← decodeOptAccount e.right
  let main := dictInsert acc.main_trie address (left_account, right_account)
  let sevents ← computeDiff nodes fuel
    (storageRootRef left_account) (storageRootRef right_account) []
  let st ← sevents.foldlM (process_storage_diff storage_key_preimages address) acc.storage_tries
  .ok ⟨main, st⟩

/-- The transition database consumed by `from_tries`. -/
structure TransitionDB where
  nodes : Store
  address_preimages : List (List Nat × List Nat)
  storage_key_preimages : List (List Nat × List Nat)
  state_root : List Nat
  post_state_root : List Nat

/-- `StateDiff.from_tries(tries)`: start from an empty accumulator and
walk the two account-trie roots with the account handler. -/
def from_tries (fuel : Nat) (db : TransitionDB) : Except Err StateDiffAcc := do
  let evs ← computeDiff db.nodes fuel (.raw db.state_root) (.raw db.post_state_root) []
  evs.foldlM
    (process_account_diff db.nodes db.address_preimages db.storage_key_preimages fuel)
    ⟨[], []⟩

/-- One object of `data["extra"]["stateDiffs"][i]["storage"]` as consumed
by `StateDiff.from_data`.  The JSON hex strings are represented by their
parsed values: `preValue`/`postValue` are the results of
`int(diff["preValue"][2:], 16)`, and `storageKey` the 32 bytes of
`Bytes32.fromhex`. -/
structure StorageDiffEntry where
  storageKey : List Nat
  preValue : Nat
  postValue : Nat
  deriving DecidableEq, Repr

/-- One object of `data["extra"]["stateDiffs"]` as consumed by
`StateDiff.from_data`: the hex-parsed address, the optional pre/post
account records (fields hex-parsed, `code` unset), and the storage diff
list (an absent `"storage"` key behaves exactly like an empty list). -/
structure AccountDiffEntry where
  address : List Nat
  preAccount : Option Account
  postAccount : Option Account
  storage : List StorageDiffEntry
  deriving DecidableEq, Repr

/-- The body of the `for storage_diff in diff["storage"]` loop of
`StateDiff.from_data`: normalize a zero integer to `None` on each side,
create the per-address inner dict if this is the first write for that
address, then assign `storage_tries[address][key] = (pre, post)`. -/
def fromDataStorageStep (st : StorageTries) (address : List Nat)
    (sd : StorageDiffEntry) : StorageTries :=
  let pre := if sd.preValue = 0 then none else some sd.preValue
  let post := if sd.postValue = 0 then none else some sd.postValue
  let st1 := if dictContains st address then st else dictInsert st address []
  dictModify st1 address (fun inner => dictInsert inner sd.storageKey (pre, post))

/-- `StateDiff.from_data(data)`: for each diff object, process its
storage entries, then record `main_trie[address] = (pre?, post?)`. -/
def from_data (diffs : List AccountDiffEntry) : StateDiffAcc :=
  diffs.foldl (fun acc diff =>
    let st := diff.storage.foldl
      (fun st sd => fromDataStorageStep st diff.address sd) acc.storage_tries
    ⟨dictInsert acc.main_trie diff.address (diff.preAccount, diff.postAccount), st⟩)
    ⟨[], []⟩

/-- The logical key→value map encoded by a trie, following the spec's
data model (§3.1): a `Leaf` maps path ⊕ `rest_of_key` to `value`, an
`Extension` advances the key by `key_segment`, a `Branch` holds one
child per first nibble (its `value` belongs to the empty remaining key).
This is the specification-side meaning of "the key's value in the
trie", used to compare the differ's output with the tries' contents. -/
def trieValue (nodes : Store) : Nat → Ref → List Nat → Option (List Nat)
  | 0, _, _ => none
  | fuel + 1, ref, key =>
    match resolve nodes ref with
    | .ok (some (.leaf rk v)) => if rk = key then some v else none
    | .ok (some (.ext ks sub)) =>
      if List.isPrefixOf ks key then trieValue nodes fuel sub (key.drop ks.length)
      else none
    | .ok (some (.branch subs v)) =>
      match key with
      | [] => some v
      | k :: rest => trieValue nodes fuel (subs.getD k .absent) rest
    | _ => none

/-! ### C1–C6 concrete inputs -/

/-- Left input of the Extension/Branch (and right input of the
Branch/Extension) dispatch case: a one-nibble extension over an inline
leaf. -/
def extOver3 : Ref := .ext [3] (.leaf [1] [7])

/-- The matching branch: the very same leaf sits in slot 3 and every
other slot is empty, so both sides encode the same single key. -/
def branchAt3 : Ref :=
  .branch [.absent, .absent, .absent, .leaf [1] [7], .absent, .absent, .absent, .absent,
           .absent, .absent, .absent, .absent, .absent, .absent, .absent, .absent] []

/-- A 32-byte hash that is deliberately absent from the node store. -/
def missingHash : List Nat := List.replicate 32 119

/-- The nesting invariant: every address in the storage map is in the
main (account) map. -/
def StorageNested (acc : StateDiffAcc) : Prop :=
  ∀ a, dictContains acc.storage_tries a = true → dictContains acc.main_trie a = true

/-! ### Concrete databases -/

/-- A code hash used by the concrete examples (32 bytes of `0xcc`). -/
def codeHash : List Nat := List.replicate 32 204

/-- RLP of the account `[nonce = 0, balance = 10, storage_root = sr,
code_hash = codeHash]` (`0xf8 0x44` long-list header, `0x80` empty
nonce, `0x0a` balance, two `0xa0`-prefixed 32-byte strings). -/
def accountRlpSR (sr : List Nat) : List Nat :=
  [248, 68, 128, 10, 160] ++ sr ++ [160] ++ codeHash

/-- Pre-state storage root of the storage example. -/
def storRootPre : List Nat := List.replicate 32 1

/-- Post-state storage root of the storage example. -/
def storRootPost : List Nat := List.replicate 32 2

/-- Hash of the pre-state account leaf of the storage example. -/
def hashAccPre : List Nat := List.replicate 32 4

/-- Hash of the post-state account leaf of the storage example. -/
def hashAccPost : List Nat := List.replicate 32 5

/-- The address of the storage example's single account. -/
def theAddress : List Nat := List.replicate 20 9

/-- The storage key preimage of the storage example's single slot. -/
def theStorageKey : List Nat := List.replicate 32 8

/-- A database with one account (key = 64 zero nibbles) whose storage
root changes because its single storage slot (key = 64 zero nibbles)
changes from `5` to `7`. -/
def dbStorage : TransitionDB :=
  ⟨[(hashAccPre, .leaf (List.replicate 64 0) (accountRlpSR storRootPre)),
    (hashAccPost, .leaf (List.replicate 64 0) (accountRlpSR storRootPost)),
    (storRootPre, .leaf (List.replicate 64 0) [5]),
    (storRootPost, .leaf (List.replicate 64 0) [7])],
   [(List.replicate 32 0, theAddress)],
   [(List.replicate 32 0, theStorageKey)],
   hashAccPre, hashAccPost⟩

/-- The accumulator `from_tries` computes for `dbStorage`. -/
def dbStorageResult : StateDiffAcc :=
  ⟨[(theAddress, (some ⟨0, 10, codeHash, storRootPre⟩, some ⟨0, 10, codeHash, storRootPost⟩))],
   [(theAddress, [(theStorageKey, (some 5, some 7))])]⟩

/-! ### C7: soundness counterexample database

Two canonical account tries over 64-nibble keys.  Pre-state holds keys
`K1 = 0,1,0…0` and `K2 = 0,2,0…0` (root `Extension([0])` over branch
`B1`).  Post-state additionally holds `K3 = 5,0,0…0` (root branch `B2`
whose slot 0 is the *same* node `B1` and slot 5 the new leaf).  `K1` and
`K2` have identical values in both tries; only `K3` is genuinely new. -/

/-- The (unresolvable, hence storage-walk-silent) storage root shared by
every account value of the cross example. -/
def aaRoot : List Nat := List.replicate 32 170

/-- RLP of the account `[nonce = 0, balance = bal, storage_root =
aaRoot, code_hash = codeHash]`. -/
def accountRlpBal (bal : Nat) : List Nat :=
  [248, 68, 128, bal, 160] ++ aaRoot ++ [160] ++ codeHash

/-- The decoded form of `accountRlpBal bal`. -/
def accountBal (bal : Nat) : Account := ⟨0, bal, codeHash, aaRoot⟩

def hashExtRoot : List Nat := List.replicate 32 225
def hashB1 : List Nat := List.replicate 32 177
def hashB2 : List Nat := List.replicate 32 178
def hashL1 : List Nat := List.replicate 32 17
def hashL2 : List Nat := List.replicate 32 34
def hashL3 : List Nat := List.replicate 32 51

/-- Branch `B1` (depth 1): leaves for `K1` at slot 1 and `K2` at
slot 2. -/
def b1subs : List Ref :=
  [.absent, .raw hashL1, .raw hashL2, .absent, .absent, .absent, .absent, .absent,
   .absent, .absent, .absent, .absent, .absent, .absent, .absent, .absent]

/-- Branch `B2` (post root): the shared `B1` at slot 0 and the new leaf
for `K3` at slot 5. -/
def b2subs : List Ref :=
  [.raw hashB1, .absent, .absent, .absent, .absent, .raw hashL3, .absent, .absent,
   .absent, .absent, .absent, .absent, .absent, .absent, .absent, .absent]

def storeCross : Store :=
  [(hashExtRoot, .ext [0] (.raw hashB1)),
   (hashB1, .branch b1subs []),
   (hashB2, .branch b2subs []),
   (hashL1, .leaf (List.replicate 62 0) (accountRlpBal 11)),
   (hashL2, .leaf (List.replicate 62 0) (accountRlpBal 12)),
   (hashL3, .leaf (0 :: List.replicate 62 0) (accountRlpBal 13))]

def packedK1 : List Nat := 1 :: List.replicate 31 0
def packedK2 : List Nat := 2 :: List.replicate 31 0
def packedK3 : List Nat := 80 :: List.replicate 31 0
def addrK1 : List Nat := List.replicate 20 161
def addrK2 : List Nat := List.replicate 20 162
def addrK3 : List Nat := List.replicate 20 163

def dbCross : TransitionDB :=
  ⟨storeCross,
   [(packedK1, addrK1), (packedK2, addrK2), (packedK3, addrK3)],
   [], hashExtRoot, hashB2⟩

/-- The 64-nibble key `K1`. -/
def keyK1 : List Nat := 0 :: 1 :: List.replicate 62 0

/-! ### Well-formedness (for C8) -/

/-- Does the reference hold an already-resolved node
(leaf / extension / branch)? -/
def isNodeRef : Ref → Bool
  | .leaf _ _ => true
  | .ext _ _ => true
  | .branch _ _ => true
  | _ => false

/-- Well-formedness of a node reference sitting at nibble depth `d` of a
trie whose logical keys are 64 nibbles wide: hash references are present
in the store and map to well-formed nodes, a leaf's `rest_of_key`
completes the depth to exactly 64, an extension consumes at least one
nibble and stays within 64, and a branch sits strictly above depth 64
with 16 well-formed children. -/
inductive Wf (nodes : Store) : Ref → Nat → Prop where
  | absent (d : Nat) : Wf nodes .absent d
  | empty (d : Nat) : Wf nodes (.raw []) d
  | hash (h : List Nat) (n : Ref) (d : Nat) : h.length = 32 → dictGet nodes h = some n →
      isNodeRef n = true → Wf nodes n d → Wf nodes (.raw h) d
  | leaf (rk v : List Nat) (d : Nat) : d + rk.length = 64 → Wf nodes (.leaf rk v) d
  | ext (ks : List Nat) (sub : Ref) (d : Nat) : ks ≠ [] → d + ks.length ≤ 64 →
      Wf nodes sub (d + ks.length) → Wf nodes (.ext ks sub) d
  | branch (subs : List Ref) (v : List Nat) (d : Nat) : subs.length = 16 → d < 64 →
      (∀ r, r ∈ subs → Wf nodes r (d + 1)) → Wf nodes (.branch subs v) d

/-! ### Helper lemmas -/

@[simp]
theorem except_bind_ok {α β : Type} (a : α) (f : α → Except Err β) :
    (Except.ok a >>= f) = f a := rfl

@[simp]
theorem except_bind_error {α β : Type} (e : Err) (f : α → Except Err β) :
    ((Except.error e : Except Err α) >>= f) = .error e := rfl

mutual

/-- Python `==` is reflexive on node references. -/
theorem refBeq_refl : ∀ a : Ref, refBeq a a = true
  | .absent => rfl
  | .raw a => by simp [refBeq]
  | .leaf a v => by simp [refBeq]
  | .ext a s => by simp [refBeq, refBeq_refl s]
  | .branch s v => by simp [refBeq, refListBeq_refl s]

theorem refListBeq_refl : ∀ s : List Ref, refListBeq s s = true
  | [] => rfl
  | a :: as => by simp [refListBeq, refBeq_refl a, refListBeq_refl as]

end

/-- The fast path: equal references return at once with no handler
call, for any store and any fuel. -/
theorem computeDiff_refl (nodes : Store) (fuel : Nat) (r : Ref) (path : List Nat) :
    computeDiff nodes fuel r r path = .ok [] := by
  cases fuel <;> simp [computeDiff, refBeq_refl]

/-- Packing nibbles two per byte halves the length. -/
theorem nibble_list_to_bytes_length :
    ∀ l : List Nat, (nibble_list_to_bytes l).length = l.length / 2
  | [] => by simp [nibble_list_to_bytes]
  | [a] => by simp [nibble_list_to_bytes]
  | a :: b :: rest => by
    have ih := nibble_list_to_bytes_length rest
    simp only [nibble_list_to_bytes, List.length_cons, ih]
    omega

/-! ### Claim theorems C1–C6 -/

/-- C1: the claim says the Extension/Branch case descends into the left
extension's subtree through exactly the matching branch slot.  The code
does not: its guard compares the `int` `l_node.key_segment[0]` with the
`bytes` `bytes([i])`, which is `False` for every nibble (first
conjunct), so every slot — the matching slot 3 included — is walked as
`(None, subnodes[i])`.  On a pair encoding the identical single key the
walk therefore reports the shared leaf as created (path `0x31`) instead
of recursing `(l.subnode, subnodes[3])`, which would have pruned. -/
theorem c1_extension_branch_never_descends_left :
    (∀ s i : Nat, pyEq (.int s) (.bytes [i]) = false) ∧
    computeDiff [] 3 extOver3 branchAt3 [] = .ok [⟨[49], none, some ([1], [7])⟩] :=
  ⟨fun _ _ => rfl, rfl⟩

/-- C2: the claim says a 32-byte hash missing from the store makes the
diff fail with a MissingNode error.  The code's `resolve` instead
returns `nodes.get(hash) = None` (first conjunct), and the walk then
treats the missing subtree as absent: against a right leaf it completes
with `.ok` and reports a creation — no error, and the missing subtree is
silently traversed as empty (second conjunct). -/
theorem c2_missing_hash_is_silently_absent :
    resolve [] (.raw missingHash) = .ok none ∧
    computeDiff [] 2 (.raw missingHash) (.leaf (List.replicate 64 0) [1]) [] =
      .ok [⟨List.replicate 32 0, none, some (List.replicate 64 0, [1])⟩] :=
  ⟨rfl, rfl⟩

/-- C3: the claim says the Branch/Extension case leaves the right
extension unmutated and constructs a fresh shortened extension for the
aligned recursion.  In the code the matched arm instead mutates
`r_node.key_segment` in place — and is unreachable anyway, since its
guard compares an `int` with a `bytes`: the loop never consults the
extension's subnode at all (second conjunct: the walk's result does not
depend on it).  Moreover the case first passes the Extension to
`check_branch_node`, whose `.value` access fails on an extension node,
so the whole case errors out (first conjunct). -/
theorem c3_branch_extension_case_is_broken :
    computeDiff [] 3 branchAt3 extOver3 [] = .error .attributeError ∧
    (∀ (go : Ref → Ref → List Nat → Except Err (List Event))
       (subs : List Ref) (rsub rsub' : Ref) (path is rseg : List Nat),
      branchExtGo go subs rsub path is rseg = branchExtGo go subs rsub' path is rseg) := by
  refine ⟨rfl, ?_⟩
  intro go subs rsub rsub' path is
  induction is with
  | nil => intro rseg; rfl
  | cons i rest ih =>
    intro rseg
    cases rseg with
    | nil => rfl
    | cons s0 stail => simp [branchExtGo, pyEq, ih]

/-- C4: the claim says every dispatch case with a Branch validates that
branch before recursing, and that Branch/Leaf validates the left-hand
branch.  In the code the Branch/Leaf case passes the right-hand *leaf*
to `check_branch_node`: a left branch carrying the non-empty value `[9]`
— which `check_branch_node` rejects (first conjunct) — goes completely
undetected, and the walk succeeds (second conjunct). -/
theorem c4_branch_leaf_validates_wrong_node :
    check_branch_node (.branch (List.replicate 16 .absent) [9]) = .error .badBranch ∧
    computeDiff [] 3 (.branch (List.replicate 16 .absent) [9]) (.leaf [1, 2] []) [] =
      .ok [⟨[18], none, some ([2], [])⟩] :=
  ⟨rfl, rfl⟩

/-- C5: equal references return immediately with no handler call and a
result independent of the node store (so no lookup can influence it),
and `from_tries` on a database whose two roots are equal returns the
empty accumulator. -/
theorem c5_equal_refs_prune (nodes : Store) (fuel : Nat) (r : Ref) (path : List Nat)
    (db : TransitionDB) (h : db.state_root = db.post_state_root) :
    computeDiff nodes fuel r r path = .ok [] ∧
    from_tries fuel db = .ok ⟨[], []⟩ := by
  refine ⟨computeDiff_refl nodes fuel r path, ?_⟩
  have h1 : computeDiff db.nodes fuel (.raw db.state_root) (.raw db.post_state_root) [] =
      .ok [] := by
    rw [h]; exact computeDiff_refl _ _ _ _
  simp only [from_tries, h1, except_bind_ok]
  rfl

/-- Witness for C5 at a concrete database with equal roots. -/
theorem c5_witness :
    from_tries 1 ⟨[], [], [], List.replicate 32 0, List.replicate 32 0⟩ = .ok ⟨[], []⟩ :=
  (c5_equal_refs_prune [] 1 .absent []
    ⟨[], [], [], List.replicate 32 0, List.replicate 32 0⟩ rfl).2

/-- C6: the Leaf/Leaf case.  Same `rest_of_key`, equal values: no
handler call.  Same `rest_of_key`, different values: exactly one call
carrying both leaves at `path ⊕ rest_of_key`.  Different
`rest_of_key`s: exactly two calls, a deletion at `path ⊕ l.rest_of_key`
followed by a creation at `path ⊕ r.rest_of_key`. -/
theorem c6_leaf_leaf_cases (nodes : Store) (fuel : Nat) (path lrk lv rrk rv : List Nat) :
    (computeDiff nodes fuel (.leaf lrk lv) (.leaf lrk lv) path = .ok []) ∧
    (lv ≠ rv → computeDiff nodes (fuel + 1) (.leaf lrk lv) (.leaf lrk rv) path =
      .ok [⟨nibble_list_to_bytes (path ++ lrk), some (lrk, lv), some (lrk, rv)⟩]) ∧
    (lrk ≠ rrk → computeDiff nodes (fuel + 1) (.leaf lrk lv) (.leaf rrk rv) path =
      .ok [⟨nibble_list_to_bytes (path ++ lrk), some (lrk, lv), none⟩,
           ⟨nibble_list_to_bytes (path ++ rrk), none, some (rrk, rv)⟩]) := by
  refine ⟨computeDiff_refl nodes fuel _ path, ?_, ?_⟩
  · intro h
    have hbeq : refBeq (.leaf lrk lv) (.leaf lrk rv) = false := by
      simp [refBeq, h]
    simp [computeDiff, hbeq, resolve, dispatch, h]
  · intro h
    have hbeq : refBeq (.leaf lrk lv) (.leaf rrk rv) = false := by
      simp [refBeq]
      intro he; exact absurd he h
    simp [computeDiff, hbeq, resolve, dispatch, h]

/-- Witness for C6: the three cases at concrete leaves. -/
theorem c6_witness :
    computeDiff [] 1 (.leaf [1] [2]) (.leaf [1] [3]) [] =
      .ok [⟨[], some ([1], [2]), some ([1], [3])⟩] ∧
    computeDiff [] 1 (.leaf [1] [2]) (.leaf [3] [4]) [] =
      .ok [⟨[], some ([1], [2]), none⟩, ⟨[], none, some ([3], [4])⟩] :=
  ⟨(c6_leaf_leaf_cases [] 0 [] [1] [2] [3] [3]).2.1 (by decide),
   (c6_leaf_leaf_cases [] 0 [] [1] [2] [3] [4]).2.2 (by decide)⟩

/-! ### Dictionary lemmas -/

theorem dictGet_insert_self {K V : Type} [DecidableEq K] (m : List (K × V)) (k : K) (v : V) :
    dictGet (dictInsert m k v) k = some v := by
  induction m with
  | nil => simp [dictInsert, dictGet]
  | cons p rest ih =>
    obtain ⟨k', v'⟩ := p
    by_cases h : k' = k <;> simp [dictInsert, dictGet, h, ih]

theorem dictGet_modify_self {K V : Type} [DecidableEq K] (m : List (K × V)) (k : K)
    (f : V → V) : dictGet (dictModify m k f) k = (dictGet m k).map f := by
  induction m with
  | nil => simp [dictModify, dictGet]
  | cons p rest ih =>
    obtain ⟨k', v'⟩ := p
    by_cases h : k' = k <;> simp [dictModify, dictGet, h, ih]

theorem dictContains_insert {K V : Type} [DecidableEq K] (m : List (K × V)) (k a : K)
    (v : V) : dictContains (dictInsert m k v) a = true → dictContains m a = true ∨ a = k := by
  induction m with
  | nil =>
    intro h
    by_cases hk : k = a
    · exact Or.inr hk.symm
    · simp [dictInsert, dictContains, dictGet, hk] at h
  | cons p rest ih =>
    obtain ⟨k', v'⟩ := p
    intro h
    by_cases hk : k' = k
    · by_cases hka : k = a
      · exact Or.inr hka.symm
      · subst hk
        simp [dictInsert, dictContains, dictGet, hka] at h ⊢
        exact Or.inl h
    · by_cases hka : k' = a
      · exact Or.inl (by simp [dictContains, dictGet, hka])
      · simp only [dictInsert, if_neg hk, dictContains, dictGet, if_neg hka] at h ⊢
        exact ih h

theorem dictContains_insert_of {K V : Type} [DecidableEq K] (m : List (K × V)) (k a : K)
    (v : V) (h : dictContains m a = true) : dictContains (dictInsert m k v) a = true := by
  induction m with
  | nil => simp [dictContains, dictGet] at h
  | cons p rest ih =>
    obtain ⟨k', v'⟩ := p
    by_cases hk : k' = k
    · subst hk
      by_cases hka : k' = a
      · subst hka
        simp [dictInsert, dictContains, dictGet]
      · simp [dictInsert, dictContains, dictGet, hka] at h ⊢
        exact h
    · by_cases hka : k' = a
      · subst hka
        simp [dictInsert, hk, dictContains, dictGet]
      · simp only [dictContains, dictGet, if_neg hka] at h
        simp only [dictInsert, if_neg hk, dictContains, dictGet, if_neg hka]
        exact ih h

theorem dictContains_modify {K V : Type} [DecidableEq K] (m : List (K × V)) (k a : K)
    (f : V → V) : dictContains (dictModify m k f) a = dictContains m a := by
  induction m with
  | nil => simp [dictModify]
  | cons p rest ih =>
    obtain ⟨k', v'⟩ := p
    by_cases hk : k' = k
    · subst hk
      by_cases hka : k' = a <;> simp [dictModify, dictContains, dictGet, hka]
    · by_cases hka : k' = a
      · subst hka
        simp [dictModify, hk, dictContains, dictGet]
      · simp only [dictModify, if_neg hk, dictContains, dictGet, if_neg hka]
        exact ih

/-! ### C10: `from_data` storage normalization -/

/-- C10: in `StateDiff.from_data`, each storage diff entry records a
side whose hex value parses to the integer `0` as `None` and any
non-zero value as that integer; the entry lands under
`storage_tries[address][storageKey]` (first conjunct), with the
per-address inner map created on the first write for that address
(second conjunct: when the address was absent, the outer map now holds
exactly the fresh singleton inner map); and a one-diff input through
the whole of `from_data` produces exactly that accumulator (third
conjunct). -/
theorem c10_from_data_zero_is_absent (st : StorageTries) (address : List Nat)
    (sd : StorageDiffEntry) (pre post : Option Account) :
    ((dictGet (fromDataStorageStep st address sd) address).bind
        (fun inner => dictGet inner sd.storageKey) =
      some (if sd.preValue = 0 then none else some sd.preValue,
            if sd.postValue = 0 then none else some sd.postValue)) ∧
    (dictContains st address = false →
      dictGet (fromDataStorageStep st address sd) address =
        some [(sd.storageKey,
          (if sd.preValue = 0 then none else some sd.preValue,
           if sd.postValue = 0 then none else some sd.postValue))]) ∧
    (from_data [⟨address, pre, post, [sd]⟩] =
      ⟨[(address, (pre, post))],
       [(address, [(sd.storageKey,
          (if sd.preValue = 0 then none else some sd.preValue,
           if sd.postValue = 0 then none else some sd.postValue))])]⟩) := by
  refine ⟨?_, ?_, ?_⟩
  · unfold fromDataStorageStep
    by_cases h : dictContains st address = true
    · simp only [h, if_true, dictGet_modify_self]
      obtain ⟨inner, hinner⟩ := Option.isSome_iff_exists.mp h
      rw [hinner]
      simp [dictGet_insert_self]
    · simp only [h, if_false, Bool.false_eq_true, dictGet_modify_self, dictGet_insert_self]
      simp [dictGet_insert_self]
  · intro h
    unfold fromDataStorageStep
    simp only [h, Bool.false_eq_true, if_false, dictGet_modify_self, dictGet_insert_self]
    simp [dictInsert, dictGet]
  · simp [from_data, fromDataStorageStep, dictContains, dictGet, dictInsert, dictModify]

/-- Witness for C10: a concrete entry with `preValue = 0` and
`postValue = 5` at a previously unseen address. -/
theorem c10_witness :
    (dictGet (fromDataStorageStep [] [1] ⟨[2], 0, 5⟩) [1]).bind
        (fun inner => dictGet inner [2]) = some (none, some 5) ∧
    dictGet (fromDataStorageStep [] [1] ⟨[2], 0, 5⟩) [1] = some [([2], (none, some 5))] ∧
    from_data [⟨[1], none, none, [⟨[2], 0, 5⟩]⟩] =
      ⟨[([1], (none, none))], [([1], [([2], (none, some 5))])]⟩ :=
  ⟨(c10_from_data_zero_is_absent [] [1] ⟨[2], 0, 5⟩ none none).1,
   (c10_from_data_zero_is_absent [] [1] ⟨[2], 0, 5⟩ none none).2.1 rfl,
   (c10_from_data_zero_is_absent [] [1] ⟨[2], 0, 5⟩ none none).2.2⟩

/-! ### C9: storage nesting -/

/-- The ensure-then-assign write only ever adds the bound address as an
outer key. -/
theorem ensure_and_set_keys (st : StorageTries) (addr key : List Nat)
    (pair : Option Nat × Option Nat) (a : List Nat)
    (ha : dictContains (ensure_and_set st addr key pair) a = true) :
    dictContains st a = true ∨ a = addr := by
  unfold ensure_and_set at ha
  rw [dictContains_modify] at ha
  by_cases hc : dictContains st addr = true
  · rw [if_pos hc] at ha; exact Or.inl ha
  · rw [if_neg hc] at ha
    exact dictContains_insert _ _ _ _ ha

/-- A single storage-handler step only ever writes under the bound
address: any key present afterwards was present before or is that
address. -/
theorem process_storage_diff_keys (preS : List (List Nat × List Nat)) (addr : List Nat)
    (st : StorageTries) (e : Event) (st' : StorageTries)
    (h : process_storage_diff preS addr st e = .ok st') :
    ∀ a, dictContains st' a = true → dictContains st a = true ∨ a = addr := by
  intro a ha
  unfold process_storage_diff at h
  rcases hk : dictGetItem preS e.path with ek | key <;> rw [hk] at h
  · simp at h
  · simp only [except_bind_ok] at h
    rcases hl : decodeOptStorage e.left with el | lv <;> rw [hl] at h
    · simp at h
    · simp only [except_bind_ok] at h
      rcases hr : decodeOptStorage e.right with er | rv <;> rw [hr] at h
      · simp at h
      · simp only [except_bind_ok] at h
        rcases hleft : e.left with _ | l <;> rw [hleft] at h <;>
          rcases hright : e.right with _ | r <;> rw [hright] at h <;>
          simp at h <;> subst h <;> exact ensure_and_set_keys _ _ _ _ _ ha

/-- The whole nested storage walk for one account only writes under its
bound address. -/
theorem storage_fold_keys (preS : List (List Nat × List Nat)) (addr : List Nat) :
    ∀ (evs : List Event) (st st' : StorageTries),
      List.foldlM (process_storage_diff preS addr) st evs = .ok st' →
      ∀ a, dictContains st' a = true → dictContains st a = true ∨ a = addr := by
  intro evs
  induction evs with
  | nil =>
    intro st st' h a ha
    simp only [List.foldlM_nil] at h
    injection h with h
    subst h
    exact Or.inl ha
  | cons e rest ih =>
    intro st st' h a ha
    rw [List.foldlM_cons] at h
    rcases hstep : process_storage_diff preS addr st e with _ | st1
    · rw [hstep] at h; simp at h
    · rw [hstep] at h
      simp only [except_bind_ok] at h
      rcases ih st1 st' h a ha with h1 | h1
      · exact process_storage_diff_keys preS addr st e st1 hstep a h1
      · exact Or.inr h1

/-- One account-handler step preserves the nesting invariant: it
records `account_diffs[address]` before its storage walk, whose writes
are all under that same `address`. -/
theorem process_account_diff_nested (nodes : Store)
    (preA preS : List (List Nat × List Nat)) (fuel : Nat) (acc : StateDiffAcc) (e : Event)
    (acc' : StateDiffAcc) (h : process_account_diff nodes preA preS fuel acc e = .ok acc')
    (hinv : StorageNested acc) : StorageNested acc' := by
  unfold process_account_diff at h
  rcases haddr : dictGetItem preA e.path with ea | address <;> rw [haddr] at h
  · simp at h
  · simp only [except_bind_ok] at h
    rcases hla : decodeOptAccount e.left with el | la <;> rw [hla] at h
    · simp at h
    · simp only [except_bind_ok] at h
      rcases hra : decodeOptAccount e.right with er | ra <;> rw [hra] at h
      · simp at h
      · simp only [except_bind_ok] at h
        rcases hevs : computeDiff nodes fuel (storageRootRef la) (storageRootRef ra) []
          with ee | sevents <;> rw [hevs] at h
        · simp at h
        · simp only [except_bind_ok] at h
          rcases hst : List.foldlM (process_storage_diff preS address) acc.storage_tries
            sevents with es | st' <;> rw [hst] at h
          · simp at h
          · simp only [except_bind_ok] at h
            injection h with h
            subst h
            intro a ha
            rcases storage_fold_keys preS address sevents acc.storage_tries st' hst a ha
              with h1 | h1
            · exact dictContains_insert_of _ _ _ _ (hinv a h1)
            · subst h1
              simp [dictContains, dictGet_insert_self]

/-- C9: whenever an address has an entry in `storage_diffs` of the
accumulator returned by `from_tries`, it also has an entry in
`account_diffs` — the storage walk for an address is launched only from
the account handler, which records the account pair first. -/
theorem c9_storage_nesting (fuel : Nat) (db : TransitionDB) (d : StateDiffAcc)
    (h : from_tries fuel db = .ok d) (a : List Nat)
    (ha : dictContains d.storage_tries a = true) : dictContains d.main_trie a = true := by
  unfold from_tries at h
  rcases hevs : computeDiff db.nodes fuel (.raw db.state_root) (.raw db.post_state_root) []
    with _ | evs
  · rw [hevs] at h; simp at h
  · rw [hevs] at h
    simp only [except_bind_ok] at h
    have main : ∀ (evs : List Event) (acc : StateDiffAcc) (d : StateDiffAcc),
        List.foldlM (process_account_diff db.nodes db.address_preimages
          db.storage_key_preimages fuel) acc evs = .ok d →
        StorageNested acc → StorageNested d := by
      intro evs
      induction evs with
      | nil =>
        intro acc d hfold hinv
        simp only [List.foldlM_nil] at hfold
        injection hfold with hfold
        subst hfold
        exact hinv
      | cons e rest ih =>
        intro acc d hfold hinv
        rw [List.foldlM_cons] at hfold
        rcases hstep : process_account_diff db.nodes db.address_preimages
          db.storage_key_preimages fuel acc e with _ | acc1
        · rw [hstep] at hfold; simp at hfold
        · rw [hstep] at hfold
          simp only [except_bind_ok] at hfold
          exact ih acc1 d hfold
            (process_account_diff_nested _ _ _ _ _ _ _ hstep hinv)
    exact main evs ⟨[], []⟩ d h (fun a ha => by simp [dictContains, dictGet] at ha) a ha

/-- Witness for C9: on `dbStorage` the walk produces a storage entry
for `theAddress`, and the nesting theorem yields its account entry. -/
theorem c9_witness : dictContains dbStorageResult.main_trie theAddress = true :=
  c9_storage_nesting 5 dbStorage dbStorageResult (by rfl) theAddress (by rfl)

/-- C7: soundness of the `from_tries` accumulator fails on `dbCross`, a
valid input pair of canonical tries: key `K1` has the identical value
`accountRlpBal 11` in the pre- and post-state tries (first two
conjuncts, via the spec-side `trieValue` semantics), yet the
accumulator reports its address `addrK1` — and likewise `addrK2` — as
created accounts (third conjunct): equal-on-both-sides keys appear in
the result.  The cause is the dead int-vs-bytes guard of the
Extension/Branch case, which walks the whole shared pre-subtree as
absent instead of descending it through the matching slot. -/
theorem c7_soundness_counterexample :
    trieValue storeCross 10 (.raw dbCross.state_root) keyK1 = some (accountRlpBal 11) ∧
    trieValue storeCross 10 (.raw dbCross.post_state_root) keyK1 = some (accountRlpBal 11) ∧
    from_tries 10 dbCross =
      .ok ⟨[(addrK1, (none, some (accountBal 11))),
            (addrK2, (none, some (accountBal 12))),
            (addrK3, (none, some (accountBal 13)))], []⟩ :=
  ⟨rfl, rfl, rfl⟩

/-! ### C8: key width -/

theorem getD_mem {α : Type} : ∀ (l : List α) (i : Nat) (d : α), i < l.length → l.getD i d ∈ l
  | a :: _, 0, d, _ => by simp [List.getD]
  | a :: rest, i + 1, d, h => by
    simp only [List.getD_cons_succ]
    exact List.mem_cons_of_mem a (getD_mem rest i d (by simpa using h))
  | [], _, _, h => by simp at h

/-- Every indexed child of a well-formed branch is well-formed one level
deeper (out-of-range indices default to `absent`). -/
theorem wf_branch_child {nodes : Store} {subs : List Ref} {v : List Nat} {d : Nat}
    (hw : Wf nodes (.branch subs v) d) (i : Nat) :
    Wf nodes (subs.getD i .absent) (d + 1) := by
  cases hw with
  | branch _ _ _ hlen hd hall =>
    by_cases hi : i < subs.length
    · exact hall _ (getD_mem subs i .absent hi)
    · have : subs.getD i .absent = .absent := by
        simp [List.getD, List.getElem?_eq_none (by omega : subs.length ≤ i)]
      rw [this]
      exact Wf.absent _

/-- `resolve` succeeds on well-formed references and yields `none` or a
well-formed node of the same depth. -/
theorem resolve_wf {nodes : Store} {r : Ref} {d : Nat} (hw : Wf nodes r d) :
    ∃ o, resolve nodes r = .ok o ∧
      ∀ n, o = some n → Wf nodes n d ∧ isNodeRef n = true := by
  cases hw with
  | absent d => exact ⟨none, rfl, by simp⟩
  | empty d => exact ⟨none, by simp [resolve], by simp⟩
  | hash h n d hlen hget hnode hwf =>
    refine ⟨some n, ?_, ?_⟩
    · have hne : h ≠ [] := by
        intro he; subst he; simp at hlen
      simp [resolve, hne, hlen, hget]
    · intro n' hn'
      injection hn' with hn'
      subst hn'
      exact ⟨hwf, hnode⟩
  | leaf rk v d h64 =>
    exact ⟨some (.leaf rk v), rfl, fun n' hn' => by
      injection hn' with hn'; subst hn'; exact ⟨Wf.leaf rk v d h64, rfl⟩⟩
  | ext ks sub d hne hle hsub =>
    exact ⟨some (.ext ks sub), rfl, fun n' hn' => by
      injection hn' with hn'; subst hn'; exact ⟨Wf.ext ks sub d hne hle hsub, rfl⟩⟩
  | branch subs v d hlen hd hall =>
    exact ⟨some (.branch subs v), rfl, fun n' hn' => by
      injection hn' with hn'; subst hn'; exact ⟨Wf.branch subs v d hlen hd hall, rfl⟩⟩

/-- Every event of a successful 16-way loop comes from one iteration. -/
theorem rangeFold_ok_mem (g : Nat → Except Err (List Event)) :
    ∀ (is : List Nat) (evs : List Event), rangeFold g is = .ok evs →
      ∀ e ∈ evs, ∃ i, i ∈ is ∧ ∃ evsi, g i = .ok evsi ∧ e ∈ evsi := by
  intro is
  induction is with
  | nil =>
    intro evs h e he
    injection h with h
    subst h
    simp at he
  | cons i rest ih =>
    intro evs h e he
    unfold rangeFold at h
    rcases hg : g i with eg | evs1 <;> rw [hg] at h
    · simp at h
    · simp only [except_bind_ok] at h
      rcases hmore : rangeFold g rest with er | more <;> rw [hmore] at h
      · simp at h
      · simp only [except_bind_ok] at h
        injection h with h
        subst h
        rcases List.mem_append.mp he with h1 | h1
        · exact ⟨i, by simp, evs1, hg, h1⟩
        · obtain ⟨j, hj, evsj, hgj, hej⟩ := ih more hmore e h1
          exact ⟨j, by simp [hj], evsj, hgj, hej⟩

/-- Every event of a successful Branch/Extension loop comes from an
iteration that walked `(subnodes[i], None)` — the matched arm's guard
compares an `int` with a `bytes` and never fires. -/
theorem branchExtGo_ok_mem (go : Ref → Ref → List Nat → Except Err (List Event))
    (subs : List Ref) (rsub : Ref) (path : List Nat) :
    ∀ (is rseg : List Nat) (evs : List Event),
      branchExtGo go subs rsub path is rseg = .ok evs →
      ∀ e ∈ evs, ∃ i, i ∈ is ∧ ∃ evsi,
        go (subs.getD i .absent) .absent (path ++ [i]) = .ok evsi ∧ e ∈ evsi := by
  intro is
  induction is with
  | nil =>
    intro rseg evs h e he
    injection h with h
    subst h
    simp at he
  | cons i rest ih =>
    intro rseg evs h e he
    unfold branchExtGo at h
    rcases rseg with _ | ⟨s0, stail⟩
    · simp at h
    · simp only [pyEq, Bool.false_eq_true, if_false] at h
      rcases hg : go (subs.getD i .absent) .absent (path ++ [i]) with eg | evs1 <;> rw [hg] at h
      · simp at h
      · simp only [except_bind_ok] at h
        rcases hmore : branchExtGo go subs rsub path rest (s0 :: stail) with er | more <;>
          rw [hmore] at h
        · simp at h
        · simp only [except_bind_ok] at h
          injection h with h
          subst h
          rcases List.mem_append.mp he with h1 | h1
          · exact ⟨i, by simp, evs1, hg, h1⟩
          · obtain ⟨j, hj, evsj, hgj, hej⟩ := ih (s0 :: stail) more hmore e h1
            exact ⟨j, by simp [hj], evsj, hgj, hej⟩

theorem wf_leaf_inv {nodes : Store} {rk v : List Nat} {d : Nat}
    (h : Wf nodes (.leaf rk v) d) : d + rk.length = 64 := by
  cases h with | leaf _ _ _ h64 => exact h64

theorem wf_ext_inv {nodes : Store} {ks : List Nat} {sub : Ref} {d : Nat}
    (h : Wf nodes (.ext ks sub) d) :
    ks ≠ [] ∧ d + ks.length ≤ 64 ∧ Wf nodes sub (d + ks.length) := by
  cases h with | ext _ _ _ a b c => exact ⟨a, b, c⟩

theorem wf_branch_inv {nodes : Store} {subs : List Ref} {v : List Nat} {d : Nat}
    (h : Wf nodes (.branch subs v) d) : d < 64 := by
  cases h with | branch _ _ _ _ hd _ => exact hd

/-- Events of a successful dispatch step have 32-byte packed paths,
provided the recursive calls do (`Hgo`) and both resolved nodes are
well-formed at the current depth. -/
theorem dispatch_paths (nodes : Store) (go : Ref → Ref → List Nat → Except Err (List Event))
    (Hgo : ∀ (l r : Ref) (p : List Nat) (evs : List Event),
      Wf nodes l p.length → Wf nodes r p.length → go l r p = .ok evs →
      ∀ e ∈ evs, e.path.length = 32)
    (lN rN : Option Ref) (path : List Nat)
    (hl : ∀ n, lN = some n → Wf nodes n path.length)
    (hr : ∀ n, rN = some n → Wf nodes n path.length)
    (evs : List Event) (hok : dispatch go lN rN path = .ok evs) :
    ∀ e ∈ evs, e.path.length = 32 := by
  have emit : ∀ (rk : List Nat), path.length + rk.length = 64 →
      (nibble_list_to_bytes (path ++ rk)).length = 32 := by
    intro rk h64
    rw [nibble_list_to_bytes_length]
    simp only [List.length_append]
    omega
  have wfApp : ∀ (ks : List Nat) (s : Ref), Wf nodes s (path.length + ks.length) →
      Wf nodes s ((path ++ ks).length) := by
    intro ks s hs
    rw [List.length_append]
    exact hs
  have wfChild : ∀ (subs2 : List Ref) (bv2 : List Nat),
      Wf nodes (.branch subs2 bv2) path.length →
      ∀ i : Nat, Wf nodes (subs2.getD i .absent) ((path ++ [i]).length) := by
    intro subs2 bv2 hw i
    rw [List.length_append]
    simpa using wf_branch_child hw i
  have wfLeafD1 : ∀ (r0 : Nat) (rtail rv2 : List Nat) (i : Nat),
      path.length + (r0 :: rtail).length = 64 →
      Wf nodes (.leaf rtail rv2) ((path ++ [i]).length) := by
    intro r0 rtail rv2 i h64
    rw [List.length_append]
    refine Wf.leaf _ _ _ ?_
    simp only [List.length_cons] at h64
    simp only [List.length_singleton]
    omega
  intro e he
  rcases lN with _ | ln
  · rcases rN with _ | rn
    · injection hok with h
      subst h
      simp at he
    · rcases rn with _ | bs | ⟨rrk, rv⟩ | ⟨rks, rsub⟩ | ⟨rsubs, rbv⟩
      · simp [dispatch] at hok
      · simp [dispatch] at hok
      · have h64 := wf_leaf_inv (hr _ rfl)
        simp only [dispatch] at hok
        injection hok with h
        subst h
        rw [List.mem_singleton] at he
        subst he
        exact emit rrk h64
      · obtain ⟨-, -, hsub⟩ := wf_ext_inv (hr _ rfl)
        simp only [dispatch] at hok
        exact Hgo _ _ _ _ (Wf.absent _) (wfApp rks rsub hsub) hok e he
      · have hwb := hr _ rfl
        simp only [dispatch] at hok
        by_cases hbv : rbv = ([] : List Nat)
        · subst hbv
          simp only [check_branch_node, if_pos rfl, except_bind_ok] at hok
          obtain ⟨i, hi, evsi, hgi, hei⟩ := rangeFold_ok_mem _ _ _ hok e he
          exact Hgo _ _ _ _ (Wf.absent _) (wfChild _ _ hwb i) hgi e hei
        · simp [check_branch_node, hbv] at hok
  · rcases ln with _ | bs | ⟨lrk, lv⟩ | ⟨lks, lsub⟩ | ⟨lsubs, lbv⟩
    · rcases rN with _ | rn
      · simp [dispatch] at hok
      · rcases rn with _ | _ | ⟨a, b⟩ | ⟨a, b⟩ | ⟨a, b⟩ <;> simp [dispatch] at hok
    · rcases rN with _ | rn
      · simp [dispatch] at hok
      · rcases rn with _ | _ | ⟨a, b⟩ | ⟨a, b⟩ | ⟨a, b⟩ <;> simp [dispatch] at hok
    · -- left Leaf
      rcases rN with _ | rn
      · have h64 := wf_leaf_inv (hl _ rfl)
        simp only [dispatch] at hok
        injection hok with h
        subst h
        rw [List.mem_singleton] at he
        subst he
        exact emit lrk h64
      · rcases rn with _ | bs2 | ⟨rrk, rv⟩ | ⟨rks, rsub⟩ | ⟨rsubs, rbv⟩
        · simp [dispatch] at hok
        · simp [dispatch] at hok
        · -- Leaf / Leaf
          have h64l := wf_leaf_inv (hl _ rfl)
          have h64r := wf_leaf_inv (hr _ rfl)
          simp only [dispatch] at hok
          split at hok
          · split at hok
            · injection hok with h
              subst h
              rw [List.mem_singleton] at he
              subst he
              exact emit lrk h64l
            · injection hok with h
              subst h
              simp at he
          · injection hok with h
            subst h
            simp only [List.mem_cons, List.not_mem_nil, or_false] at he
            rcases he with he | he <;> subst he
            · exact emit lrk h64l
            · exact emit rrk h64r
        · -- Leaf / Ext
          obtain ⟨-, -, hsub⟩ := wf_ext_inv (hr _ rfl)
          have h64l := wf_leaf_inv (hl _ rfl)
          simp only [dispatch] at hok
          split at hok
          case isTrue hpre =>
            have hle : rks.length ≤ lrk.length :=
              (List.isPrefixOf_iff_prefix.mp hpre).length_le
            refine Hgo _ _ _ _ ?_ (wfApp rks rsub hsub) hok e he
            rw [List.length_append]
            refine Wf.leaf _ _ _ ?_
            simp only [List.length_drop]
            omega
          case isFalse hpre =>
            rcases hgo : go .absent rsub (path ++ rks) with eg | more <;> rw [hgo] at hok
            · simp at hok
            · simp only [except_bind_ok] at hok
              injection hok with h
              subst h
              rcases List.mem_cons.mp he with he | he
              · subst he
                exact emit lrk h64l
              · exact Hgo _ _ _ _ (Wf.absent _) (wfApp rks rsub hsub) hgo e he
        · -- Leaf / Branch
          have h64l := wf_leaf_inv (hl _ rfl)
          have hwb := hr _ rfl
          simp only [dispatch] at hok
          by_cases hbv : rbv = ([] : List Nat)
          · subst hbv
            simp only [check_branch_node, if_pos rfl, except_bind_ok] at hok
            obtain ⟨i, hi, evsi, hgi, hei⟩ := rangeFold_ok_mem _ _ _ hok e he
            rcases lrk with _ | ⟨l0, ltail⟩
            · simp at hgi
            · simp only [ne_eq, ite_not] at hgi
              split at hgi
              · exact Hgo _ _ _ _ (wfLeafD1 l0 ltail lv i h64l) (wfChild _ _ hwb i) hgi e hei
              · exact Hgo _ _ _ _ (Wf.absent _) (wfChild _ _ hwb i) hgi e hei
          · simp [check_branch_node, hbv] at hok
    · -- left Ext
      rcases rN with _ | rn
      · obtain ⟨-, -, hsub⟩ := wf_ext_inv (hl _ rfl)
        simp only [dispatch] at hok
        exact Hgo _ _ _ _ (wfApp lks lsub hsub) (Wf.absent _) hok e he
      · rcases rn with _ | bs2 | ⟨rrk, rv⟩ | ⟨rks, rsub⟩ | ⟨rsubs, rbv⟩
        · simp [dispatch] at hok
        · simp [dispatch] at hok
        · -- Ext / Leaf
          obtain ⟨-, -, hsub⟩ := wf_ext_inv (hl _ rfl)
          have h64r := wf_leaf_inv (hr _ rfl)
          simp only [dispatch] at hok
          split at hok
          case isTrue hpre =>
            have hle : lks.length ≤ rrk.length :=
              (List.isPrefixOf_iff_prefix.mp hpre).length_le
            refine Hgo _ _ _ _ (wfApp lks lsub hsub) ?_ hok e he
            rw [List.length_append]
            refine Wf.leaf _ _ _ ?_
            simp only [List.length_drop]
            omega
          case isFalse hpre =>
            rcases hgo : go lsub .absent (path ++ lks) with eg | more <;> rw [hgo] at hok
            · simp at hok
            · simp only [except_bind_ok] at hok
              injection hok with h
              subst h
              rcases List.mem_cons.mp he with he | he
              · subst he
                exact emit rrk h64r
              · exact Hgo _ _ _ _ (wfApp lks lsub hsub) (Wf.absent _) hgo e he
        · -- Ext / Ext
          obtain ⟨hneL, hleL, hsubL⟩ := wf_ext_inv (hl _ rfl)
          obtain ⟨hneR, hleR, hsubR⟩ := wf_ext_inv (hr _ rfl)
          simp only [dispatch] at hok
          split at hok
          case isTrue hk =>
            subst hk
            exact Hgo _ _ _ _ (wfApp lks lsub hsubL) (wfApp lks rsub hsubR) hok e he
          case isFalse hk =>
            split at hok
            case isTrue hpre =>
              have hp := List.isPrefixOf_iff_prefix.mp hpre
              have hlt : rks.length < lks.length := by
                rcases Nat.lt_or_ge rks.length lks.length with hlt | hge
                · exact hlt
                · exact absurd (hp.eq_of_length (le_antisymm hp.length_le hge)).symm hk
              refine Hgo _ _ _ _ ?_ (wfApp rks rsub hsubR) hok e he
              rw [List.length_append]
              refine Wf.ext _ _ _ ?_ ?_ ?_
              · intro hnil
                have hc := congrArg List.length hnil
                simp only [List.length_drop, List.length_nil] at hc
                omega
              · simp only [List.length_drop]
                omega
              · have heq : path.length + rks.length + (lks.drop rks.length).length =
                    path.length + lks.length := by
                  simp only [List.length_drop]
                  omega
                rw [heq]
                exact hsubL
            case isFalse hpre2 =>
              split at hok
              case isTrue hpre =>
                have hp := List.isPrefixOf_iff_prefix.mp hpre
                have hlt : lks.length < rks.length := by
                  rcases Nat.lt_or_ge lks.length rks.length with hlt | hge
                  · exact hlt
                  · exact absurd (hp.eq_of_length (le_antisymm hp.length_le hge)) hk
                refine Hgo _ _ _ _ (wfApp lks lsub hsubL) ?_ hok e he
                rw [List.length_append]
                refine Wf.ext _ _ _ ?_ ?_ ?_
                · intro hnil
                  have hc := congrArg List.length hnil
                  simp only [List.length_drop, List.length_nil] at hc
                  omega
                · simp only [List.length_drop]
                  omega
                · have heq : path.length + lks.length + (rks.drop lks.length).length =
                      path.length + rks.length := by
                    simp only [List.length_drop]
                    omega
                  rw [heq]
                  exact hsubR
              case isFalse hpre3 =>
                rcases hgoL : go lsub .absent (path ++ lks) with eg | evsL <;> rw [hgoL] at hok
                · simp at hok
                · simp only [except_bind_ok] at hok
                  rcases hgoR : go .absent rsub (path ++ rks) with eg | evsR <;> rw [hgoR] at hok
                  · simp at hok
                  · simp only [except_bind_ok] at hok
                    injection hok with h
                    subst h
                    rcases List.mem_append.mp he with he1 | he1
                    · exact Hgo _ _ _ _ (wfApp lks lsub hsubL) (Wf.absent _) hgoL e he1
                    · exact Hgo _ _ _ _ (Wf.absent _) (wfApp rks rsub hsubR) hgoR e he1
        · -- Ext / Branch
          obtain ⟨hneL, hleL, hsubL⟩ := wf_ext_inv (hl _ rfl)
          have hwb := hr _ rfl
          simp only [dispatch] at hok
          by_cases hbv : rbv = ([] : List Nat)
          · subst hbv
            simp only [check_branch_node, if_pos rfl, except_bind_ok] at hok
            obtain ⟨i, hi, evsi, hgi, hei⟩ := rangeFold_ok_mem _ _ _ hok e he
            rcases lks with _ | ⟨k0, ktail⟩
            · exact absurd rfl hneL
            · simp only [pyEq, Bool.false_eq_true, if_false] at hgi
              exact Hgo _ _ _ _ (Wf.absent _) (wfChild _ _ hwb i) hgi e hei
          · simp [check_branch_node, hbv] at hok
    · -- left Branch
      rcases rN with _ | rn
      · have hwb := hl _ rfl
        simp only [dispatch] at hok
        by_cases hbv : lbv = ([] : List Nat)
        · subst hbv
          simp only [check_branch_node, if_pos rfl, except_bind_ok] at hok
          obtain ⟨i, hi, evsi, hgi, hei⟩ := rangeFold_ok_mem _ _ _ hok e he
          exact Hgo _ _ _ _ (wfChild _ _ hwb i) (Wf.absent _) hgi e hei
        · simp [check_branch_node, hbv] at hok
      · rcases rn with _ | bs2 | ⟨rrk, rv⟩ | ⟨rks, rsub⟩ | ⟨rsubs, rbv⟩
        · simp [dispatch] at hok
        · simp [dispatch] at hok
        · -- Branch / Leaf
          have hwb := hl _ rfl
          have h64r := wf_leaf_inv (hr _ rfl)
          simp only [dispatch] at hok
          by_cases hrv : rv = ([] : List Nat)
          · subst hrv
            simp only [check_branch_node, if_pos rfl, except_bind_ok] at hok
            obtain ⟨i, hi, evsi, hgi, hei⟩ := rangeFold_ok_mem _ _ _ hok e he
            rcases rrk with _ | ⟨r0, rtail⟩
            · simp at hgi
            · simp only [ne_eq, ite_not] at hgi
              split at hgi
              · exact Hgo _ _ _ _ (wfChild _ _ hwb i) (wfLeafD1 r0 rtail [] i h64r) hgi e hei
              · exact Hgo _ _ _ _ (wfChild _ _ hwb i) (Wf.absent _) hgi e hei
          · simp [check_branch_node, hrv] at hok
        · -- Branch / Ext
          simp only [dispatch] at hok
          simp [check_branch_node] at hok
        · -- Branch / Branch
          have hwbL := hl _ rfl
          have hwbR := hr _ rfl
          simp only [dispatch] at hok
          by_cases hbvL : lbv = ([] : List Nat)
          · subst hbvL
            by_cases hbvR : rbv = ([] : List Nat)
            · subst hbvR
              simp only [check_branch_node, if_pos rfl, except_bind_ok] at hok
              obtain ⟨i, hi, evsi, hgi, hei⟩ := rangeFold_ok_mem _ _ _ hok e he
              exact Hgo _ _ _ _ (wfChild _ _ hwbL i) (wfChild _ _ hwbR i) hgi e hei
            · simp [check_branch_node, hbvR] at hok
          · simp [check_branch_node, hbvL] at hok

/-- C8: for every well-formed input pair over 64-nibble-wide keys, every
`full_key_bytes` value passed to a leaf handler has length exactly 32
bytes — the accumulated nibble path plus the leaf's `rest_of_key` at
every emission totals exactly 64 nibbles and is packed two per byte.
Stated for every walk of `computeDiff`, which covers both the account
walk and every nested storage walk (each is an instance at its own
roots). -/
theorem c8_key_width (nodes : Store) (fuel : Nat) :
    ∀ (l r : Ref) (path : List Nat) (evs : List Event),
      Wf nodes l path.length → Wf nodes r path.length →
      computeDiff nodes fuel l r path = .ok evs →
      ∀ e ∈ evs, e.path.length = 32 := by
  induction fuel with
  | zero =>
    intro l r path evs hwl hwr h e he
    unfold computeDiff at h
    split at h
    · injection h with h
      subst h
      simp at he
    · simp at h
  | succ fuel ih =>
    intro l r path evs hwl hwr h e he
    unfold computeDiff at h
    split at h
    · injection h with h
      subst h
      simp at he
    · obtain ⟨ol, hol, hnl⟩ := resolve_wf hwl
      obtain ⟨orr, hor, hnr⟩ := resolve_wf hwr
      rw [hol] at h
      simp only [except_bind_ok] at h
      rw [hor] at h
      simp only [except_bind_ok] at h
      exact dispatch_paths nodes (computeDiff nodes fuel) ih ol orr path
        (fun n hn => (hnl n hn).1) (fun n hn => (hnr n hn).1) evs h e he

/-- Witness for C8: a creation event at a 64-nibble leaf under the
empty path has a 32-byte packed key. -/
theorem c8_witness :
    (⟨List.replicate 32 0, none, some (List.replicate 64 0, [1])⟩ : Event).path.length = 32 :=
  c8_key_width [] 1 .absent (.leaf (List.replicate 64 0) [1]) []
    [⟨List.replicate 32 0, none, some (List.replicate 64 0, [1])⟩]
    (Wf.absent 0) (Wf.leaf _ _ _ (by simp)) (by rfl)
    ⟨List.replicate 32 0, none, some (List.replicate 64 0, [1])⟩ (by simp)

end TrieDiff
